import Mathlib

/-!
Verification of `generate_tree_map.py` (DirectoryTreeMapGenerator).

The file system visible to the program is modelled as a finite tree: a
non-directory object (regular file, or anything `os.path.isdir` rejects) is
`FS.file`, and a directory is `FS.dir entries` where `entries` pairs each
child's base name with its own subtree, in the arbitrary order `os.listdir`
would report.  Output to standard output is modelled as the list of the
arguments of the `print` calls, in order (each element is one printed line).
-/

/-- A file-system object: either a non-directory (`os.path.isdir` is false)
or a directory with named children.  The order of `entries` is the raw,
unspecified `os.listdir` order. -/
inductive FS where
  | file : FS
  | dir (entries : List (String × FS)) : FS
deriving Repr, Inhabited

/-- The hidden-entry test `e.startswith(".")` used by both walkers:
true exactly when the name's first character is `'.'`. -/
def isHidden (name : String) : Bool :=
  match name.data with
  | [] => false
  | c :: _ => c == '.'

/-- One insertion step of the ascending sort by entry name (Python's
`sorted` on the name strings, carried out on (name, subtree) pairs). -/
def insortEntry (a : String × FS) : List (String × FS) → List (String × FS)
  | [] => [a]
  | b :: bs => if a.1 ≤ b.1 then a :: b :: bs else b :: insortEntry a bs

/-- `sorted(os.listdir(curr_path))`: ascending lexicographic insertion sort
of the directory's entries by name. -/
def sortEntries : List (String × FS) → List (String × FS)
  | [] => []
  | a :: as => insortEntry a (sortEntries as)

/-- The two lines shared by both walkers:
`entries = sorted(os.listdir(curr_path))` followed by
`entries = [e for e in entries if not e.startswith(".")]`. -/
def prepare (l : List (String × FS)) : List (String × FS) :=
  (sortEntries l).filter (fun e => !isHidden e.1)

/-- The `special_comments` dict literal (identical in both functions),
as an exact-match lookup. -/
def special_comments (filename : String) : Option String :=
  if filename = "main.py" then some "◀ CLI entry point"
  else if filename = "pyproject.toml" then some "◀ For installability (recommended)"
  else none

/-- `comment_for_file` as nested in `generate_tree_map`:
`return f"◀ {special_comments[filename]}" if filename in special_comments else ""`. -/
def comment_for_file (filename : String) : String :=
  match special_comments filename with
  | some c => "◀ " ++ c
  | none => ""

/-- `comment_for_file` as nested in `generate_tree_map_json`:
`return special_comments.get(filename, "")`. -/
def comment_for_file_json (filename : String) : String :=
  (special_comments filename).getD ""

theorem sizeOf_insortEntry (a : String × FS) (l : List (String × FS)) :
    sizeOf (insortEntry a l) = 1 + sizeOf a + sizeOf l := by
  induction l with
  | nil => simp [insortEntry]
  | cons b bs ih =>
      by_cases h : a.1 ≤ b.1 <;> simp [insortEntry, h, ih] <;> omega

theorem sizeOf_sortEntries (l : List (String × FS)) :
    sizeOf (sortEntries l) = sizeOf l := by
  induction l with
  | nil => simp [sortEntries]
  | cons a as ih => simp [sortEntries, sizeOf_insortEntry, ih]

theorem sizeOf_filter_le (p : (String × FS) → Bool) (l : List (String × FS)) :
    sizeOf (l.filter p) ≤ sizeOf l := by
  induction l with
  | nil => simp
  | cons a as ih =>
      by_cases h : p a <;> simp [List.filter, h] <;> omega

theorem sizeOf_prepare_le (l : List (String × FS)) :
    sizeOf (prepare l) ≤ sizeOf l := by
  have h := sizeOf_filter_le (fun e => !isHidden e.1) (sortEntries l)
  have h2 := sizeOf_sortEntries l
  simp only [prepare]
  omega

/-- The `for index, entry in enumerate(entries)` loop body of `walk_dir` in
`generate_tree_map`, acting on a sorted-and-filtered entry list.
`is_entry_last` (`index == len(entries) - 1`) is "the remaining tail is
empty"; a directory entry prints its line then recurses on its own
sorted-and-filtered children with the extended prefix. -/
def walkTextEntries (ind lind sp fsp : String) (pre : String) :
    List (String × FS) → List String
  | [] => []
  | (name, node) :: rest =>
      let isLast := rest.isEmpty
      let branch := if isLast then lind else ind
      let linePre := pre ++ branch
      let nextPre := pre ++ (if isLast then fsp else sp)
      match node with
      | FS.dir children =>
          (linePre ++ name ++ "/") ::
            (walkTextEntries ind lind sp fsp nextPre (prepare children) ++
              walkTextEntries ind lind sp fsp pre rest)
      | FS.file =>
          (linePre ++ name ++ " " ++ comment_for_file name) ::
            walkTextEntries ind lind sp fsp pre rest
termination_by l => sizeOf l
decreasing_by
  all_goals simp
  all_goals try omega
  all_goals (have h := sizeOf_prepare_le children; omega)

/-- `walk_dir(curr_path, prefix, is_last)` of `generate_tree_map`: list,
sort and filter the directory's entries, then run the loop.  (The `is_last`
parameter of the Python function is never read, so it is dropped.) -/
def walk_dir (ind lind sp fsp : String) (pre : String)
    (entries : List (String × FS)) : List String :=
  walkTextEntries ind lind sp fsp pre (prepare entries)

/-- Outcome of one `generate_tree_map` call: the lines printed, and whether
the call ended with an uncaught host error from `os.listdir` (which is what
happens when the root is not a directory, since the function performs no
check of its own). -/
structure TextRun where
  printed : List String
  osError : Bool
deriving Repr

/-- `generate_tree_map(root_path, indent, last_indent, spacer, final_spacer)`.
`rootName` stands for `os.path.basename(os.path.abspath(root_path))`.
The root line is printed first; then `walk_dir(root_path)` runs, and
`os.listdir` on a non-directory raises (modelled by `osError = true`). -/
def generate_tree_map (rootName : String) (fs : FS)
    (ind : String := "├── ") (lind : String := "└── ")
    (sp : String := "│   ") (fsp : String := "    ") : TextRun :=
  match fs with
  | FS.dir es => ⟨(rootName ++ "/") :: walk_dir ind lind sp fsp "" es, false⟩
  | FS.file => ⟨[rootName ++ "/"], true⟩

/-- One node of the structure built by `walk_dir_json`: the Python dicts
`{"type": "directory", "name": ..., "children": [...]}` and
`{"type": "file", "name": ..., "comment": ...}`. -/
inductive JsonNode where
  | file (name : String) (comment : String) : JsonNode
  | dir (name : String) (children : List JsonNode) : JsonNode
deriving Repr, Inhabited

/-- The `name` field a node carries in either shape. -/
def JsonNode.name : JsonNode → String
  | .file n _ => n
  | .dir n _ => n

/-- The `for entry in entries` loop of `walk_dir_json`, acting on a
sorted-and-filtered entry list: directories recurse (on their own
sorted-and-filtered children) into a `"children"` subtree, everything else
becomes a `"file"` node whose comment is `comment_for_file(entry)` of the
JSON variant. -/
def walkJsonEntries : List (String × FS) → List JsonNode
  | [] => []
  | (name, node) :: rest =>
      match node with
      | FS.dir children =>
          JsonNode.dir name (walkJsonEntries (prepare children)) ::
            walkJsonEntries rest
      | FS.file =>
          JsonNode.file name (comment_for_file_json name) :: walkJsonEntries rest
termination_by l => sizeOf l
decreasing_by
  all_goals simp
  all_goals try omega
  all_goals (have h := sizeOf_prepare_le children; omega)

/-- `walk_dir_json(curr_path)`: list, sort and filter the directory's
entries, then run the loop. -/
def walk_dir_json (entries : List (String × FS)) : List JsonNode :=
  walkJsonEntries (prepare entries)

/-- `print_tree(tree, prefix)` of `generate_tree_map_json`, with the
hard-coded glyphs `"├── "`, `"└── "`, `"│   "`, `"    "`; a file node's
comment is preceded by a single space only when it is non-empty. -/
def print_tree : List JsonNode → String → List String
  | [], _ => []
  | node :: rest, pre =>
      let isLast := rest.isEmpty
      let branch := if isLast then "└── " else "├── "
      let nextPre := pre ++ (if isLast then "    " else "│   ")
      match node with
      | JsonNode.dir name children =>
          (pre ++ branch ++ name ++ "/") ::
            (print_tree children nextPre ++ print_tree rest pre)
      | JsonNode.file name comment =>
          (pre ++ branch ++ name ++ (if comment ≠ "" then " " ++ comment else "")) ::
            print_tree rest pre
termination_by l => sizeOf l
decreasing_by
  all_goals simp
  all_goals omega

/-- A JSON value, as far as this program's output needs: strings, arrays
and objects with ordered fields (Python dicts keep insertion order and
`json.dump` serialises the fields in that order). -/
inductive JValue where
  | str (s : String) : JValue
  | arr (elems : List JValue) : JValue
  | obj (fields : List (String × JValue)) : JValue
deriving Repr, Inhabited

mutual
/-- The JSON value `json.dump` receives for one node dict of the structure
built by `walk_dir_json`. -/
def nodeJson : JsonNode → JValue
  | JsonNode.file n c =>
      JValue.obj [("type", JValue.str "file"), ("name", JValue.str n),
        ("comment", JValue.str c)]
  | JsonNode.dir n cs =>
      JValue.obj [("type", JValue.str "directory"), ("name", JValue.str n),
        ("children", JValue.arr (nodesJson cs))]

/-- `nodeJson` mapped over a list of nodes, in order. -/
def nodesJson : List JsonNode → List JValue
  | [] => []
  | n :: rest => nodeJson n :: nodesJson rest
end

/-- The document passed to `json.dump`:
`{"root": root_name, "structure": tree_structure}`. -/
def jsonDoc (rootName : String) (tree : List JsonNode) : JValue :=
  JValue.obj [("root", JValue.str rootName),
    ("structure", JValue.arr (nodesJson tree))]

/-- The `indent=4` argument of the `json.dump` call. -/
def json_dump_indent : Nat := 4

/-- The `encoding="utf-8"` argument of the `open` call for the output file. -/
def json_write_encoding : String := "utf-8"

/-- How one `generate_tree_map_json` call ends: normally, with the
`ValueError` ("InvalidArgument") raised for a non-directory root before any
output, or with an I/O error ("WriteError") from opening/writing the JSON
output file. -/
inductive JsonOutcome where
  | ok : JsonOutcome
  | invalidArgument : JsonOutcome
  | writeError : JsonOutcome
deriving Repr, DecidableEq

/-- Outcome of one `generate_tree_map_json` call: the lines printed to
standard output in order, how the call ended, and the JSON document written
to the output file (if any). -/
structure JsonRun where
  printed : List String
  outcome : JsonOutcome
  written : Option JValue
deriving Repr

/-- `generate_tree_map_json(root_path, output_json_path)`.
`rootName` stands for `os.path.basename(os.path.abspath(root_path))`;
`writeFails` models the environment making the `open`/`json.dump` of the
output file fail.  Mirrors the source order: the `os.path.isdir` check and
`ValueError` first, then `walk_dir_json`, then the root line and
`print_tree`, then — only if `output_json_path` is truthy (Python's `if
output_json_path:`, so a `None` or empty path skips it) — the file write
and the confirmation line. -/
def generate_tree_map_json (rootName : String) (fs : FS)
    (outPath : Option String := none) (writeFails : Bool := false) : JsonRun :=
  match fs with
  | FS.file => ⟨[], JsonOutcome.invalidArgument, none⟩
  | FS.dir es =>
      let tree := walk_dir_json es
      let printed := (rootName ++ "/") :: print_tree tree ""
      match outPath with
      | none => ⟨printed, JsonOutcome.ok, none⟩
      | some p =>
          if p = "" then ⟨printed, JsonOutcome.ok, none⟩
          else if writeFails then ⟨printed, JsonOutcome.writeError, none⟩
          else ⟨printed ++ ["\n✅ Tree structure saved to " ++ p],
            JsonOutcome.ok, some (jsonDoc rootName tree)⟩

/-- The tree rendering part of `generate_tree_map_json`'s standard output
(empty when the root is not a directory, since the `ValueError` fires
before any print). -/
def treePrinted (rootName : String) : FS → List String
  | FS.file => []
  | FS.dir es => (rootName ++ "/") :: print_tree (walk_dir_json es) ""

/-- The confirmation line printed after a successful save, as a function of
the output path argument. -/
def saveConfirm : Option String → List String
  | none => []
  | some p => ["\n✅ Tree structure saved to " ++ p]

/-- C1: counter-evaluation.  The annotator nested in `generate_tree_map`
prepends a second `"◀ "` to table labels that already begin with `"◀"`, so
for `main.py` it returns `"◀ ◀ CLI entry point"` instead of the fixed label
`"◀ CLI entry point"`; the annotator nested in `generate_tree_map_json`
returns the fixed label itself, so the two entry operations disagree on the
designated names (they do agree, on `""`, for every other name, e.g.
`README.md`). -/
theorem C1_text_comment_marker_doubled :
    comment_for_file "main.py" = "◀ ◀ CLI entry point" ∧
    comment_for_file_json "main.py" = "◀ CLI entry point" ∧
    comment_for_file "main.py" ≠ comment_for_file_json "main.py" ∧
    comment_for_file "pyproject.toml" = "◀ ◀ For installability (recommended)" ∧
    comment_for_file_json "pyproject.toml" = "◀ For installability (recommended)" ∧
    comment_for_file "README.md" = "" ∧
    comment_for_file_json "README.md" = "" :=
  ⟨rfl, rfl, by decide, rfl, rfl, rfl, rfl⟩

/-- C2: counter-evaluation.  In `generate_tree_map`, a file line is printed
as `f"{line_prefix}{entry} {comment}"`, so a file whose annotation is empty
still gets a trailing space after its name (`"└── util.py "`), while the
printing pass of `generate_tree_map_json` adds the separating space only
when the comment is non-empty (`"└── util.py"`).  Directory lines end in
`"/"` in both. -/
theorem C2_text_file_line_trailing_space :
    (generate_tree_map "root" (FS.dir [("util.py", FS.file)])).printed =
      ["root/", "└── util.py "] ∧
    (generate_tree_map_json "root" (FS.dir [("util.py", FS.file)]) none
        false).printed = ["root/", "└── util.py"] ∧
    ("└── util.py " : String) ≠ "└── util.py" := by
  refine ⟨?_, ?_, by decide⟩
  · simp [generate_tree_map, walk_dir, walkTextEntries, prepare, sortEntries,
      insortEntry, isHidden, comment_for_file, special_comments]
  · simp [generate_tree_map_json, walk_dir_json, walkJsonEntries, print_tree,
      prepare, sortEntries, insortEntry, isHidden, comment_for_file_json,
      special_comments]

/-- C3: counter-evaluation.  On a root directory holding the single file
`a.txt`, `generate_tree_map` prints `"└── a.txt "` (trailing space from its
unconditional `f"{...}{entry} {comment}"`) while `generate_tree_map_json`
prints `"└── a.txt"`, so the two entry operations are not byte-identical
renderers on the same file-system state. -/
theorem C3_text_and_json_renderings_differ :
    (generate_tree_map "root" (FS.dir [("a.txt", FS.file)])).printed =
      ["root/", "└── a.txt "] ∧
    (generate_tree_map_json "root" (FS.dir [("a.txt", FS.file)]) none
        false).printed = ["root/", "└── a.txt"] ∧
    (generate_tree_map "root" (FS.dir [("a.txt", FS.file)])).printed ≠
      (generate_tree_map_json "root" (FS.dir [("a.txt", FS.file)]) none
        false).printed := by
  have h1 : (generate_tree_map "root" (FS.dir [("a.txt", FS.file)])).printed =
      ["root/", "└── a.txt "] := by
    simp [generate_tree_map, walk_dir, walkTextEntries, prepare, sortEntries,
      insortEntry, isHidden, comment_for_file, special_comments]
  have h2 : (generate_tree_map_json "root" (FS.dir [("a.txt", FS.file)]) none
      false).printed = ["root/", "└── a.txt"] := by
    simp [generate_tree_map_json, walk_dir_json, walkJsonEntries, print_tree,
      prepare, sortEntries, insortEntry, isHidden, comment_for_file_json,
      special_comments]
  exact ⟨h1, h2, by rw [h1, h2]; decide⟩

/-- C7: for a root that is not a directory, `generate_tree_map_json` raises
its `ValueError` (the InvalidArgument outcome) straight after the
`os.path.isdir` check: nothing has been printed and no JSON file has been
created, whatever the output-path argument and the state of the output
device. -/
theorem C7_json_invalid_root_fails_before_output (rootName : String)
    (outPath : Option String) (writeFails : Bool) :
    generate_tree_map_json rootName FS.file outPath writeFails =
      ⟨[], JsonOutcome.invalidArgument, none⟩ := rfl

/-- C9: `generate_tree_map` performs no directory check of its own: on a
non-directory root it prints the root base-name line first and then
`os.listdir` raises the host error (`osError = true`), whereas
`generate_tree_map_json` on the same root prints nothing and ends with its
InvalidArgument outcome. -/
theorem C9_text_root_line_then_listdir_error (rootName : String)
    (ind lind sp fsp : String) (outPath : Option String) (writeFails : Bool) :
    generate_tree_map rootName FS.file ind lind sp fsp =
      ⟨[rootName ++ "/"], true⟩ ∧
    (generate_tree_map_json rootName FS.file outPath writeFails).printed = [] ∧
    (generate_tree_map_json rootName FS.file outPath writeFails).outcome =
      JsonOutcome.invalidArgument :=
  ⟨rfl, rfl, rfl⟩

/-- C8: whenever a `generate_tree_map_json` call ends in the WriteError
outcome, the root had passed the directory check, the full tree (root line
plus `print_tree` of the completely built node structure) is already on
standard output and stays there, no JSON document was written, and the
failure indeed came from the output file (`writeFails = true`): the JSON
write strictly follows the printing step. -/
theorem C8_write_error_only_after_full_print (rootName : String) (fs : FS)
    (outPath : Option String) (writeFails : Bool)
    (h : (generate_tree_map_json rootName fs outPath writeFails).outcome =
      JsonOutcome.writeError) :
    (generate_tree_map_json rootName fs outPath writeFails).printed =
      treePrinted rootName fs ∧
    (generate_tree_map_json rootName fs outPath writeFails).written = none ∧
    fs ≠ FS.file ∧ writeFails = true := by
  match fs, outPath with
  | FS.file, _ => simp [generate_tree_map_json] at h
  | FS.dir es, none => simp [generate_tree_map_json] at h
  | FS.dir es, some p =>
      by_cases hp : p = ""
      · simp [generate_tree_map_json, hp] at h
      · cases writeFails with
        | false => simp [generate_tree_map_json, hp] at h
        | true => exact ⟨by simp [generate_tree_map_json, hp, treePrinted],
            by simp [generate_tree_map_json, hp], by simp, rfl⟩

/-- C8 witness: on a concrete run (empty root directory, output path
`"o.json"`, failing write) the outcome is WriteError and the theorem
applies. -/
theorem C8_write_error_only_after_full_print_witness :
    (generate_tree_map_json "root" (FS.dir []) (some "o.json") true).outcome =
      JsonOutcome.writeError ∧
    (generate_tree_map_json "root" (FS.dir []) (some "o.json") true).printed =
      treePrinted "root" (FS.dir []) :=
  ⟨rfl, (C8_write_error_only_after_full_print "root" (FS.dir [])
    (some "o.json") true rfl).1⟩

/-- C10: if no output path is supplied, nothing is written and standard
output is exactly the tree rendering; and whenever a JSON document has been
written, standard output is the tree rendering followed by the single
confirmation line `"\n✅ Tree structure saved to <path>"` and the call
ended normally. -/
theorem C10_confirmation_line_exactly_on_write (rootName : String) (fs : FS)
    (outPath : Option String) (writeFails : Bool) :
    (outPath = none →
      (generate_tree_map_json rootName fs outPath writeFails).printed =
        treePrinted rootName fs ∧
      (generate_tree_map_json rootName fs outPath writeFails).written = none) ∧
    ((generate_tree_map_json rootName fs outPath writeFails).written ≠ none →
      (generate_tree_map_json rootName fs outPath writeFails).printed =
        treePrinted rootName fs ++ saveConfirm outPath ∧
      (generate_tree_map_json rootName fs outPath writeFails).outcome =
        JsonOutcome.ok ∧ outPath ≠ none) := by
  match fs, outPath with
  | FS.file, none => exact ⟨fun _ => ⟨rfl, rfl⟩, by simp [generate_tree_map_json]⟩
  | FS.file, some p => exact ⟨by simp, by simp [generate_tree_map_json]⟩
  | FS.dir es, none =>
      exact ⟨fun _ => ⟨rfl, rfl⟩, by simp [generate_tree_map_json]⟩
  | FS.dir es, some p =>
      refine ⟨by simp, fun hw => ?_⟩
      by_cases hp : p = ""
      · simp [generate_tree_map_json, hp] at hw
      · cases writeFails with
        | true => simp [generate_tree_map_json, hp] at hw
        | false =>
            exact ⟨by simp [generate_tree_map_json, hp, treePrinted, saveConfirm],
              by simp [generate_tree_map_json, hp], by simp⟩

/-- C10 witness: the theorem applied to two concrete runs on an empty root
directory, once with no output path (exactly the tree is printed, nothing
written) and once with output path `"t.json"` and a succeeding write (tree
plus confirmation line). -/
theorem C10_confirmation_line_exactly_on_write_witness :
    ((generate_tree_map_json "root" (FS.dir []) none false).printed =
        treePrinted "root" (FS.dir []) ∧
      (generate_tree_map_json "root" (FS.dir []) none false).written = none) ∧
    ((generate_tree_map_json "root" (FS.dir []) (some "t.json") false).printed =
        treePrinted "root" (FS.dir []) ++ saveConfirm (some "t.json") ∧
      (generate_tree_map_json "root" (FS.dir []) (some "t.json") false).outcome =
        JsonOutcome.ok ∧ (some "t.json" : Option String) ≠ none) :=
  ⟨(C10_confirmation_line_exactly_on_write "root" (FS.dir []) none false).1 rfl,
   (C10_confirmation_line_exactly_on_write "root" (FS.dir []) (some "t.json")
      false).2 (by simp [generate_tree_map_json])⟩

mutual
/-- Remove every hidden-named entry from a tree, recursively (the contents
of a removed directory disappear with it).  Both walkers should be blind to
the difference between `fs` and `prune fs`. -/
def prune : FS → FS
  | FS.file => FS.file
  | FS.dir es => FS.dir (pruneEntries es)

/-- `prune` applied entrywise, dropping hidden names. -/
def pruneEntries : List (String × FS) → List (String × FS)
  | [] => []
  | (n, node) :: rest =>
      if isHidden n then pruneEntries rest
      else (n, prune node) :: pruneEntries rest
end

/-- `prune` on a single (name, subtree) pair that is being kept. -/
def entryPrune (e : String × FS) : String × FS := (e.1, prune e.2)

mutual
/-- No node of this JSON subtree carries a hidden name. -/
def JsonNode.allVisible : JsonNode → Bool
  | JsonNode.file n _ => !isHidden n
  | JsonNode.dir n cs => !isHidden n && allVisibleList cs

/-- `JsonNode.allVisible` over a whole sibling list. -/
def allVisibleList : List JsonNode → Bool
  | [] => true
  | n :: rest => JsonNode.allVisible n && allVisibleList rest
end

theorem pruneEntries_eq_filter_map (l : List (String × FS)) :
    pruneEntries l = (l.filter (fun e => !isHidden e.1)).map entryPrune := by
  induction l with
  | nil => simp [pruneEntries]
  | cons e rest ih =>
      obtain ⟨n, node⟩ := e
      by_cases h : isHidden n <;>
        simp [pruneEntries, List.filter, h, ih, entryPrune]

theorem insortEntry_perm (a : String × FS) (l : List (String × FS)) :
    List.Perm (insortEntry a l) (a :: l) := by
  induction l with
  | nil => simp [insortEntry]
  | cons b bs ih =>
      by_cases h : a.1 ≤ b.1
      · simp [insortEntry, h]
      · simp only [insortEntry, if_neg h]
        exact (ih.cons b).trans (List.Perm.swap a b bs)

theorem sortEntries_perm (l : List (String × FS)) :
    List.Perm (sortEntries l) l := by
  induction l with
  | nil => simp [sortEntries]
  | cons a as ih =>
      exact (insortEntry_perm a (sortEntries as)).trans (ih.cons a)

theorem mem_insortEntry {c a : String × FS} {l : List (String × FS)}
    (h : c ∈ insortEntry a l) : c = a ∨ c ∈ l := by
  have := (insortEntry_perm a l).mem_iff.mp h
  simpa using this

theorem insortEntry_map_entryPrune (a : String × FS) (l : List (String × FS)) :
    insortEntry (entryPrune a) (l.map entryPrune) =
      (insortEntry a l).map entryPrune := by
  induction l with
  | nil => simp [insortEntry]
  | cons b bs ih =>
      by_cases h : a.1 ≤ b.1
      · simp [insortEntry, entryPrune, h]
      · simp only [List.map_cons, insortEntry, entryPrune, if_neg h]
        simpa [entryPrune] using ih

theorem sortEntries_map_entryPrune (l : List (String × FS)) :
    sortEntries (l.map entryPrune) = (sortEntries l).map entryPrune := by
  induction l with
  | nil => simp [sortEntries]
  | cons a as ih => simp [sortEntries, ih, insortEntry_map_entryPrune]

theorem filter_map_entryPrune (p : (String × FS) → Bool)
    (hp : ∀ e, p (entryPrune e) = p e) (l : List (String × FS)) :
    (l.map entryPrune).filter p = (l.filter p).map entryPrune := by
  induction l with
  | nil => simp
  | cons a as ih =>
      by_cases h : p a <;> simp [List.filter, hp, h, ih]

theorem pairwise_insortEntry {a : String × FS} {l : List (String × FS)}
    (h : l.Pairwise (fun x y => x.1 ≤ y.1)) :
    (insortEntry a l).Pairwise (fun x y => x.1 ≤ y.1) := by
  induction l with
  | nil => simp [insortEntry]
  | cons b bs ih =>
      rcases List.pairwise_cons.mp h with ⟨hb, hbs⟩
      by_cases hab : a.1 ≤ b.1
      · simp only [insortEntry, if_pos hab]
        refine List.pairwise_cons.mpr ⟨?_, h⟩
        intro c hc
        rcases List.mem_cons.mp hc with rfl | hc
        · exact hab
        · exact le_trans hab (hb c hc)
      · simp only [insortEntry, if_neg hab]
        refine List.pairwise_cons.mpr ⟨?_, ih hbs⟩
        intro c hc
        rcases mem_insortEntry hc with rfl | hc
        · exact le_of_not_le hab
        · exact hb c hc

theorem pairwise_sortEntries (l : List (String × FS)) :
    (sortEntries l).Pairwise (fun x y => x.1 ≤ y.1) := by
  induction l with
  | nil => simp [sortEntries]
  | cons a as ih => exact pairwise_insortEntry ih

theorem filter_insortEntry_neg (p : (String × FS) → Bool) {a : String × FS}
    (ha : p a = false) (l : List (String × FS)) :
    (insortEntry a l).filter p = l.filter p := by
  induction l with
  | nil => simp [insortEntry, List.filter, ha]
  | cons b bs ih =>
      by_cases h : a.1 ≤ b.1
      · simp [insortEntry, h, List.filter, ha]
      · by_cases hb : p b <;>
          simp [insortEntry, h, List.filter, hb, ih]

theorem insortEntry_of_le_all {a : String × FS} {l : List (String × FS)}
    (h : ∀ c ∈ l, a.1 ≤ c.1) : insortEntry a l = a :: l := by
  cases l with
  | nil => simp [insortEntry]
  | cons b bs => simp [insortEntry, h b (by simp)]

theorem filter_insortEntry_pos (p : (String × FS) → Bool) {a : String × FS}
    (ha : p a = true) {l : List (String × FS)}
    (hs : l.Pairwise (fun x y => x.1 ≤ y.1)) :
    (insortEntry a l).filter p = insortEntry a (l.filter p) := by
  induction l with
  | nil => simp [insortEntry, List.filter, ha]
  | cons b bs ih =>
      rcases List.pairwise_cons.mp hs with ⟨hb, hbs⟩
      by_cases h : a.1 ≤ b.1
      · have hall : ∀ c ∈ (b :: bs).filter p, a.1 ≤ c.1 := by
          intro c hc
          rcases List.mem_filter.mp hc with ⟨hc', _⟩
          rcases List.mem_cons.mp hc' with rfl | hc''
          · exact h
          · exact le_trans h (hb c hc'')
        rw [insortEntry_of_le_all hall]
        simp only [insortEntry, if_pos h]
        rw [List.filter_cons_of_pos ha]
      · by_cases hpb : p b <;>
          simp [insortEntry, h, List.filter, hpb, ih hbs]

theorem sortEntries_filter (p : (String × FS) → Bool) (l : List (String × FS)) :
    sortEntries (l.filter p) = (sortEntries l).filter p := by
  induction l with
  | nil => simp [sortEntries]
  | cons a as ih =>
      by_cases h : p a
      · rw [List.filter_cons_of_pos h]
        simp only [sortEntries, ih]
        exact (filter_insortEntry_pos p h (pairwise_sortEntries as)).symm
      · rw [List.filter_cons_of_neg (by simpa using h)]
        simp only [sortEntries, ih]
        exact (filter_insortEntry_neg p (by simpa using h) (sortEntries as)).symm

theorem prepare_filter_self (l : List (String × FS)) :
    prepare (l.filter (fun e => !isHidden e.1)) = prepare l := by
  simp only [prepare, sortEntries_filter, List.filter_filter]
  congr 1
  funext e
  cases isHidden e.1 <;> simp

theorem prepare_pruneEntries (l : List (String × FS)) :
    prepare (pruneEntries l) = (prepare l).map entryPrune := by
  have hp : ∀ e, (fun e => !isHidden e.1) (entryPrune e) =
      (fun e => !isHidden e.1) e := fun e => rfl
  rw [pruneEntries_eq_filter_map]
  calc prepare ((l.filter (fun e => !isHidden e.1)).map entryPrune)
      = (sortEntries ((l.filter (fun e => !isHidden e.1)).map entryPrune)).filter
          (fun e => !isHidden e.1) := rfl
    _ = ((sortEntries (l.filter (fun e => !isHidden e.1))).map entryPrune).filter
          (fun e => !isHidden e.1) := by rw [sortEntries_map_entryPrune]
    _ = ((sortEntries (l.filter (fun e => !isHidden e.1))).filter
          (fun e => !isHidden e.1)).map entryPrune := by
          rw [filter_map_entryPrune _ hp]
    _ = (prepare (l.filter (fun e => !isHidden e.1))).map entryPrune := rfl
    _ = (prepare l).map entryPrune := by rw [prepare_filter_self]

theorem walkTextEntries_map_entryPrune (ind lind sp fsp : String) :
    ∀ (n : Nat) (l : List (String × FS)) (pre : String), sizeOf l ≤ n →
      walkTextEntries ind lind sp fsp pre (l.map entryPrune) =
      walkTextEntries ind lind sp fsp pre l := by
  intro n
  induction n with
  | zero =>
      intro l pre h
      exfalso
      cases l <;> simp at h <;> omega
  | succ n ihn =>
      intro l pre h
      match l with
      | [] => rfl
      | (name, node) :: rest =>
          have hrest : sizeOf rest ≤ n := by simp at h; omega
          have hempty : (rest.map entryPrune).isEmpty = rest.isEmpty := by
            cases rest <;> simp
          match node with
          | FS.file =>
              simp only [List.map_cons, entryPrune, prune, walkTextEntries,
                hempty]
              rw [ihn rest pre hrest]
          | FS.dir children =>
              have hcs : sizeOf (prepare children) ≤ n := by
                have h1 := sizeOf_prepare_le children
                simp at h
                omega
              simp only [List.map_cons, entryPrune, prune, walkTextEntries,
                hempty, prepare_pruneEntries]
              rw [ihn rest pre hrest,
                ihn (prepare children) _ hcs]

theorem walkJsonEntries_map_entryPrune :
    ∀ (n : Nat) (l : List (String × FS)), sizeOf l ≤ n →
      walkJsonEntries (l.map entryPrune) = walkJsonEntries l := by
  intro n
  induction n with
  | zero =>
      intro l h
      exfalso
      cases l <;> simp at h <;> omega
  | succ n ihn =>
      intro l h
      match l with
      | [] => rfl
      | (name, node) :: rest =>
          have hrest : sizeOf rest ≤ n := by simp at h; omega
          match node with
          | FS.file =>
              simp only [List.map_cons, entryPrune, prune, walkJsonEntries]
              rw [ihn rest hrest]
          | FS.dir children =>
              have hcs : sizeOf (prepare children) ≤ n := by
                have h1 := sizeOf_prepare_le children
                simp at h
                omega
              simp only [List.map_cons, entryPrune, prune, walkJsonEntries,
                prepare_pruneEntries]
              rw [ihn rest hrest, ihn (prepare children) hcs]

theorem mem_prepare_not_hidden {e : String × FS} {l : List (String × FS)}
    (h : e ∈ prepare l) : isHidden e.1 = false := by
  rcases List.mem_filter.mp h with ⟨_, hh⟩
  simpa using hh

theorem allVisibleList_walkJsonEntries :
    ∀ (n : Nat) (l : List (String × FS)), sizeOf l ≤ n →
      (∀ e ∈ l, isHidden e.1 = false) →
      allVisibleList (walkJsonEntries l) = true := by
  intro n
  induction n with
  | zero =>
      intro l h
      exfalso
      cases l <;> simp at h <;> omega
  | succ n ihn =>
      intro l h hvis
      match l with
      | [] => simp [walkJsonEntries, allVisibleList]
      | (name, node) :: rest =>
          have hrest : sizeOf rest ≤ n := by simp at h; omega
          have hvisrest : ∀ e ∈ rest, isHidden e.1 = false := by
            intro e he
            exact hvis e (by simp [he])
          have hname : isHidden name = false := hvis (name, node) (by simp)
          match node with
          | FS.file =>
              simp only [walkJsonEntries, allVisibleList, JsonNode.allVisible,
                hname]
              simp [ihn rest hrest hvisrest]
          | FS.dir children =>
              have hcs : sizeOf (prepare children) ≤ n := by
                have h1 := sizeOf_prepare_le children
                simp at h
                omega
              simp only [walkJsonEntries, allVisibleList, JsonNode.allVisible,
                hname]
              simp [ihn rest hrest hvisrest,
                ihn (prepare children) hcs (fun e he => mem_prepare_not_hidden he)]

/-- C4: hidden entries are invisible to both entry operations.  Pruning
every hidden-named entry out of the tree, recursively, changes neither the
full result of `generate_tree_map` (any glyph arguments) nor the full
result of `generate_tree_map_json` (any output path and write behaviour) —
so no output line and no JSON node comes from a hidden entry and a hidden
directory's contents are never visited — and, positively, every node of the
structure built by `walk_dir_json` carries a non-hidden name. -/
theorem C4_hidden_entries_excluded_recursively :
    (∀ (rootName : String) (fs : FS) (ind lind sp fsp : String),
      generate_tree_map rootName (prune fs) ind lind sp fsp =
        generate_tree_map rootName fs ind lind sp fsp) ∧
    (∀ (rootName : String) (fs : FS) (outPath : Option String)
      (writeFails : Bool),
      generate_tree_map_json rootName (prune fs) outPath writeFails =
        generate_tree_map_json rootName fs outPath writeFails) ∧
    (∀ entries : List (String × FS),
      allVisibleList (walk_dir_json entries) = true) := by
  have hwalkJson : ∀ es : List (String × FS),
      walk_dir_json (pruneEntries es) = walk_dir_json es := by
    intro es
    unfold walk_dir_json
    rw [prepare_pruneEntries,
      walkJsonEntries_map_entryPrune (sizeOf (prepare es)) (prepare es) le_rfl]
  refine ⟨?_, ?_, ?_⟩
  · intro rootName fs ind lind sp fsp
    cases fs with
    | file => rfl
    | dir es =>
        simp only [prune, generate_tree_map, walk_dir, prepare_pruneEntries]
        rw [walkTextEntries_map_entryPrune ind lind sp fsp
          (sizeOf (prepare es)) (prepare es) "" le_rfl]
  · intro rootName fs outPath writeFails
    cases fs with
    | file => rfl
    | dir es =>
        simp only [prune, generate_tree_map_json, hwalkJson]
  · intro entries
    exact allVisibleList_walkJsonEntries (sizeOf (prepare entries))
      (prepare entries) le_rfl (fun e he => mem_prepare_not_hidden he)

mutual
/-- Well-formedness of a modelled file system: within every directory, the
entry names are pairwise distinct (as is true of any real directory,
`os.listdir` never repeating a name). -/
def FS.namesNodup : FS → Bool
  | FS.file => true
  | FS.dir es => namesNodupEntries es

/-- `FS.namesNodup` for one directory's entry list. -/
def namesNodupEntries : List (String × FS) → Bool
  | [] => true
  | (n, node) :: rest =>
      rest.all (fun e => !(e.1 == n)) && FS.namesNodup node &&
        namesNodupEntries rest
end

/-- Adjacent strict ascent of a name list (what "strict ascending
lexicographic order" means line by line). -/
def strictChain : List String → Bool
  | [] => true
  | [_] => true
  | a :: b :: rest => decide (a < b) && strictChain (b :: rest)

mutual
/-- Every `children` array anywhere below this node is strictly ascending
by name. -/
def JsonNode.sortedTree : JsonNode → Bool
  | JsonNode.file _ _ => true
  | JsonNode.dir _ cs => strictChain (cs.map JsonNode.name) && sortedTreeList cs

/-- `JsonNode.sortedTree` over a whole sibling list. -/
def sortedTreeList : List JsonNode → Bool
  | [] => true
  | n :: rest => JsonNode.sortedTree n && sortedTreeList rest
end

/-- Mark each element of a list with "is it the last one", the way
`enumerate` plus `idx == len(tree) - 1` does. -/
def withLast {α : Type} : List α → List (α × Bool)
  | [] => []
  | [a] => [(a, true)]
  | a :: b :: rest => (a, false) :: withLast (b :: rest)

/-- The lines `print_tree` produces for one node of a sibling group, given
the inherited prefix and the node's is-last flag. -/
def renderOne (pre : String) (isLast : Bool) : JsonNode → List String
  | JsonNode.dir name children =>
      (pre ++ (if isLast then "└── " else "├── ") ++ name ++ "/") ::
        print_tree children (pre ++ (if isLast then "    " else "│   "))
  | JsonNode.file name comment =>
      [pre ++ (if isLast then "└── " else "├── ") ++ name ++
        (if comment ≠ "" then " " ++ comment else "")]

theorem walkJsonEntries_map_name (l : List (String × FS)) :
    (walkJsonEntries l).map JsonNode.name = l.map Prod.fst := by
  induction l with
  | nil => simp [walkJsonEntries]
  | cons e rest ih =>
      obtain ⟨name, node⟩ := e
      cases node <;> simp [walkJsonEntries, JsonNode.name, ih]

theorem namesNodupEntries_split {l : List (String × FS)}
    (h : namesNodupEntries l = true) :
    l.Pairwise (fun a b => a.1 ≠ b.1) ∧ ∀ e ∈ l, FS.namesNodup e.2 = true := by
  induction l with
  | nil => simp
  | cons e rest ih =>
      obtain ⟨n, node⟩ := e
      simp only [namesNodupEntries, Bool.and_eq_true, List.all_eq_true] at h
      obtain ⟨⟨hall, hnode⟩, hrest⟩ := h
      obtain ⟨hpw, hmem⟩ := ih hrest
      refine ⟨List.pairwise_cons.mpr ⟨?_, hpw⟩, ?_⟩
      · intro b hb
        have hball := hall b hb
        simp only [Bool.not_eq_eq_eq_not, Bool.not_true, beq_eq_false_iff_ne,
          ne_eq] at hball
        exact fun hc => hball hc.symm
      · intro e he
        rcases List.mem_cons.mp he with rfl | he
        · exact hnode
        · exact hmem e he

theorem mem_prepare {e : String × FS} {l : List (String × FS)}
    (h : e ∈ prepare l) : e ∈ l :=
  (sortEntries_perm l).mem_iff.mp (List.mem_filter.mp h).1

theorem prepare_pairwise_lt {l : List (String × FS)}
    (h : l.Pairwise (fun a b => a.1 ≠ b.1)) :
    (prepare l).Pairwise (fun a b => a.1 < b.1) := by
  have hle := pairwise_sortEntries l
  have hne : (sortEntries l).Pairwise (fun a b => a.1 ≠ b.1) :=
    ((sortEntries_perm l).pairwise_iff (fun hab e => hab e.symm)).mpr h
  have hlt : (sortEntries l).Pairwise (fun a b => a.1 < b.1) :=
    (hle.and hne).imp (fun hab => lt_of_le_of_ne hab.1 hab.2)
  exact hlt.sublist (List.filter_sublist _)

theorem strictChain_of_pairwise :
    ∀ {names : List String}, names.Pairwise (fun a b => a < b) →
      strictChain names = true := by
  intro names
  induction names with
  | nil => intro; rfl
  | cons a rest ih =>
      intro h
      rcases List.pairwise_cons.mp h with ⟨ha, hrest⟩
      cases rest with
      | nil => rfl
      | cons b rs =>
          simp only [strictChain, Bool.and_eq_true, decide_eq_true_eq]
          exact ⟨ha b (by simp), ih hrest⟩

theorem sortedTreeList_walkJsonEntries :
    ∀ (n : Nat) (l : List (String × FS)), sizeOf l ≤ n →
      (∀ e ∈ l, FS.namesNodup e.2 = true) →
      sortedTreeList (walkJsonEntries l) = true := by
  intro n
  induction n with
  | zero =>
      intro l h
      exfalso
      cases l <;> simp at h <;> omega
  | succ n ihn =>
      intro l h hnd
      match l with
      | [] => simp [walkJsonEntries, sortedTreeList]
      | (name, node) :: rest =>
          have hrest : sizeOf rest ≤ n := by simp at h; omega
          have hndrest : ∀ e ∈ rest, FS.namesNodup e.2 = true :=
            fun e he => hnd e (by simp [he])
          match node with
          | FS.file =>
              simp only [walkJsonEntries, sortedTreeList, JsonNode.sortedTree]
              simp [ihn rest hrest hndrest]
          | FS.dir children =>
              have hcs : sizeOf (prepare children) ≤ n := by
                have h1 := sizeOf_prepare_le children
                simp at h
                omega
              have hcnd : namesNodupEntries children = true := by
                have hx := hnd (name, FS.dir children) (by simp)
                simpa [FS.namesNodup] using hx
              obtain ⟨hpw, hmem⟩ := namesNodupEntries_split hcnd
              have hchain : strictChain
                  ((walkJsonEntries (prepare children)).map JsonNode.name) =
                    true := by
                rw [walkJsonEntries_map_name]
                exact strictChain_of_pairwise
                  (List.pairwise_map.mpr (prepare_pairwise_lt hpw))
              have hsub : sortedTreeList (walkJsonEntries (prepare children)) =
                  true :=
                ihn (prepare children) hcs
                  (fun e he => hmem e (mem_prepare he))
              simp only [walkJsonEntries, sortedTreeList, JsonNode.sortedTree]
              simp [hchain, hsub, ihn rest hrest hndrest]

theorem print_tree_eq_join_renderOne :
    ∀ (tree : List JsonNode) (pre : String),
      print_tree tree pre =
        ((withLast tree).map (fun nb => renderOne pre nb.2 nb.1)).join := by
  intro tree
  induction tree with
  | nil => intro pre; simp [print_tree, withLast]
  | cons a rest ih =>
      intro pre
      cases rest with
      | nil => cases a <;> simp [print_tree, withLast, renderOne]
      | cons b rs => cases a <;> simp [print_tree, withLast, renderOne, ih]

/-- C5: at every level both renderers follow one strictly ascending sibling
order.  Under the real-directory assumption that names within each
directory are distinct (`namesNodup`): the sorted-and-filtered entry list
both walkers consume is strictly ascending by name; every `children` array
built by `walk_dir_json`, and the top structure list, is strictly ascending
by node name, recursively; and `print_tree` renders a sibling list as the
in-order concatenation of each node's own lines (no re-sorting at render
time), so the printed ordering is the constructed children ordering. -/
theorem C5_levels_strictly_sorted_and_printed_in_order :
    (∀ es : List (String × FS), namesNodupEntries es = true →
      ((prepare es).map Prod.fst).Pairwise (fun a b => a < b)) ∧
    (∀ es : List (String × FS), namesNodupEntries es = true →
      strictChain ((walk_dir_json es).map JsonNode.name) = true ∧
      sortedTreeList (walk_dir_json es) = true) ∧
    (∀ (tree : List JsonNode) (pre : String),
      print_tree tree pre =
        ((withLast tree).map (fun nb => renderOne pre nb.2 nb.1)).join) := by
  refine ⟨?_, ?_, print_tree_eq_join_renderOne⟩
  · intro es h
    exact List.pairwise_map.mpr
      (prepare_pairwise_lt (namesNodupEntries_split h).1)
  · intro es h
    obtain ⟨hpw, hmem⟩ := namesNodupEntries_split h
    refine ⟨?_, ?_⟩
    · rw [walk_dir_json, walkJsonEntries_map_name]
      exact strictChain_of_pairwise
        (List.pairwise_map.mpr (prepare_pairwise_lt hpw))
    · exact sortedTreeList_walkJsonEntries (sizeOf (prepare es)) (prepare es)
        le_rfl (fun e he => hmem e (mem_prepare he))

/-- C5 witness: a two-file directory listed out of order (`b.py` before
`a.py`) has distinct names, and the theorem yields the strictly sorted
prepared list, tree chain and recursive sortedness on it. -/
theorem C5_levels_strictly_sorted_and_printed_in_order_witness :
    namesNodupEntries [("b.py", FS.file), ("a.py", FS.file)] = true ∧
    (((prepare [("b.py", FS.file), ("a.py", FS.file)]).map
      Prod.fst).Pairwise (fun a b => a < b) ∧
    strictChain ((walk_dir_json [("b.py", FS.file), ("a.py", FS.file)]).map
      JsonNode.name) = true ∧
    sortedTreeList (walk_dir_json [("b.py", FS.file), ("a.py", FS.file)]) =
      true) := by
  have h : namesNodupEntries [("b.py", FS.file), ("a.py", FS.file)] = true := by
    simp [namesNodupEntries, FS.namesNodup]
  exact ⟨h,
    C5_levels_strictly_sorted_and_printed_in_order.1 _ h,
    (C5_levels_strictly_sorted_and_printed_in_order.2.1 _ h).1,
    (C5_levels_strictly_sorted_and_printed_in_order.2.1 _ h).2⟩

mutual
/-- Shape check for one serialised node object: exactly the three ordered
keys `type`/`name`/`children` with `children` an array of good nodes (for
`"directory"`), or `type`/`name`/`comment` with `comment` a string equal to
the annotation table lookup — so the empty string whenever no annotation
applies (for `"file"`). -/
def goodNode : JValue → Bool
  | JValue.obj [("type", JValue.str "directory"), ("name", JValue.str _),
      ("children", JValue.arr cs)] => goodNodeList cs
  | JValue.obj [("type", JValue.str "file"), ("name", JValue.str nm),
      ("comment", JValue.str c)] => c == comment_for_file_json nm
  | _ => false

/-- `goodNode` over a whole array of nodes. -/
def goodNodeList : List JValue → Bool
  | [] => true
  | v :: rest => goodNode v && goodNodeList rest
end

theorem goodNodeList_nodesJson_walk :
    ∀ (n : Nat) (l : List (String × FS)), sizeOf l ≤ n →
      goodNodeList (nodesJson (walkJsonEntries l)) = true := by
  intro n
  induction n with
  | zero =>
      intro l h
      exfalso
      cases l <;> simp at h <;> omega
  | succ n ihn =>
      intro l h
      match l with
      | [] => simp [walkJsonEntries, nodesJson, goodNodeList]
      | (name, node) :: rest =>
          have hrest : sizeOf rest ≤ n := by simp at h; omega
          match node with
          | FS.file =>
              simp only [walkJsonEntries, nodesJson, nodeJson, goodNodeList,
                goodNode]
              simp [ihn rest hrest]
          | FS.dir children =>
              have hcs : sizeOf (prepare children) ≤ n := by
                have h1 := sizeOf_prepare_le children
                simp at h
                omega
              simp only [walkJsonEntries, nodesJson, nodeJson, goodNodeList,
                goodNode]
              simp [ihn rest hrest, ihn (prepare children) hcs]

/-- C6: with an output path supplied (and the write succeeding), the JSON
document written is the top-level object with exactly the two ordered keys
`root` (the root's base name) and `structure` (the array of serialised
nodes of `walk_dir_json`), every node of which passes the shape check
`goodNode` — directory nodes have a (possibly empty) `children` array, file
nodes always carry a `comment` that is the table lookup, hence `""` for
non-designated names; the dump is made with indentation width 4 into a file
opened with UTF-8 encoding. -/
theorem C6_json_document_shape (rootName : String) (es : List (String × FS))
    (p : String) (hp : p ≠ "") :
    (generate_tree_map_json rootName (FS.dir es) (some p) false).written =
      some (JValue.obj [("root", JValue.str rootName),
        ("structure", JValue.arr (nodesJson (walk_dir_json es)))]) ∧
    goodNodeList (nodesJson (walk_dir_json es)) = true ∧
    json_dump_indent = 4 ∧ json_write_encoding = "utf-8" := by
  refine ⟨?_, ?_, rfl, rfl⟩
  · simp [generate_tree_map_json, hp, jsonDoc]
  · exact goodNodeList_nodesJson_walk (sizeOf (prepare es)) (prepare es) le_rfl

/-- C6 witness: concrete run on a root holding `main.py`, written to
`tree.json`. -/
theorem C6_json_document_shape_witness :
    ("tree.json" : String) ≠ "" ∧
    (generate_tree_map_json "root" (FS.dir [("main.py", FS.file)])
        (some "tree.json") false).written =
      some (JValue.obj [("root", JValue.str "root"),
        ("structure", JValue.arr (nodesJson
          (walk_dir_json [("main.py", FS.file)])))]) ∧
    goodNodeList (nodesJson (walk_dir_json [("main.py", FS.file)])) = true :=
  ⟨by decide,
    (C6_json_document_shape "root" [("main.py", FS.file)] "tree.json"
      (by decide)).1,
    (C6_json_document_shape "root" [("main.py", FS.file)] "tree.json"
      (by decide)).2.1⟩
